import Mathlib

/-!
Shallow embedding of the es-duck bulk-ingestion loaders
(`load_duckdb.rs`, `load_clickhouse.rs`, `load_postgres.rs`).

Bytes are modelled as natural numbers (values below 256 wherever the code
produces them), files as `List Nat`, and the fallible reader loops as
`Option`/`Except`-valued functions.  Machine-integer arithmetic on sizes and
counts is modelled over `Nat`; the quantities involved (`file_size / 100`,
thread counts, byte offsets within a file) stay far below `2^64` for any input
the binaries can actually process, so no wrap-around modelling is needed.
-/

namespace EsDuck

/-! ### LEB128 varint writer (`write_varint` in load_clickhouse.rs) -/

/-- Translated from `write_varint`: loop pushing `value & 0x7F`, with `0x80`
or-ed in whenever `value >> 7` is still nonzero, until the value is exhausted. -/
def write_varint (value : Nat) : List Nat :=
  let b := value % 128
  let v2 := value / 128
  if v2 = 0 then [b] else (b + 128) :: write_varint v2
termination_by value
decreasing_by
  simp_wf
  omega

/-- Marks the continuation bit (adds `0x80`) on every byte except the final one. -/
def markContinuation : List Nat → List Nat
  | [] => []
  | [d] => [d]
  | d :: d2 :: rest => (d + 128) :: markContinuation (d2 :: rest)

/-- Modelled from the spec: the base-128 varint of a value is its sequence of
7-bit groups, least-significant group first (`Nat.digits 128`, with zero
encoded as a single `0` byte), with the continuation bit set on all but the
final byte. -/
def leb128Spec (v : Nat) : List Nat :=
  markContinuation (if v = 0 then [0] else Nat.digits 128 v)

/-- Modelled from the spec: LEB128 varint reader — a byte below 128 ends the
varint, a byte with the continuation bit contributes its 7 low bits. -/
def readVarint : List Nat → Option (Nat × List Nat)
  | [] => none
  | b :: rest =>
    if b < 128 then some (b, rest)
    else
      match readVarint rest with
      | some (v, r) => some ((b - 128) + 128 * v, r)
      | none => none

/-- Modelled from the spec: read `n` raw bytes of a length-prefixed field. -/
def readBytes (n : Nat) (l : List Nat) : Option (List Nat × List Nat) :=
  if n ≤ l.length then some (l.take n, l.drop n) else none

/-- Modelled from the spec: the RowBinary record parser — varint key length,
key bytes, varint value length, value bytes. -/
def readRowBinaryRecord (l : List Nat) :
    Option ((List Nat × List Nat) × List Nat) :=
  match readVarint l with
  | none => none
  | some (klen, r1) =>
    match readBytes klen r1 with
    | none => none
    | some (k, r2) =>
      match readVarint r2 with
      | none => none
      | some (vlen, r3) =>
        match readBytes vlen r3 with
        | none => none
        | some (v, r4) => some ((k, v), r4)

/-- Translated from `format_kvbin_to_rowbinary`'s per-record output:
`write_varint(klen) ++ key ++ write_varint(vlen) ++ value`. -/
def encodeRowBinary (k v : List Nat) : List Nat :=
  write_varint k.length ++ k ++ write_varint v.length ++ v

theorem markContinuation_cons (d : Nat) (l : List Nat) (h : l ≠ []) :
    markContinuation (d :: l) = (d + 128) :: markContinuation l := by
  cases l with
  | nil => exact absurd rfl h
  | cons a t => rfl

theorem write_varint_eq_leb128Spec (v : Nat) : write_varint v = leb128Spec v := by
  induction v using Nat.strong_induction_on with
  | _ v ih =>
    rw [write_varint]
    by_cases h : v / 128 = 0
    · have hv : v < 128 := by omega
      simp only [h, if_pos rfl, leb128Spec]
      by_cases h0 : v = 0
      · subst h0; rfl
      · rw [if_neg h0, Nat.digits_def' (by norm_num : 1 < 128) (Nat.pos_of_ne_zero h0), h]
        simp [Nat.mod_eq_of_lt hv, markContinuation]
    · simp only [if_neg h]
      have hlt : v / 128 < v := Nat.div_lt_self (by omega) (by norm_num)
      rw [ih (v / 128) hlt]
      have hv0 : v ≠ 0 := by
        intro h0; subst h0; simp at h
      have hd : Nat.digits 128 v = v % 128 :: Nat.digits 128 (v / 128) :=
        Nat.digits_def' (by norm_num : 1 < 128) (Nat.pos_of_ne_zero hv0)
      have hne : Nat.digits 128 (v / 128) ≠ [] := by
        simp [Nat.digits_ne_nil_iff_ne_zero, h]
      simp only [leb128Spec, if_neg hv0, if_neg h, hd]
      rw [markContinuation_cons _ _ hne]

theorem readVarint_write (v : Nat) (tail : List Nat) :
    readVarint (write_varint v ++ tail) = some (v, tail) := by
  induction v using Nat.strong_induction_on with
  | _ v ih =>
    rw [write_varint]
    by_cases h : v / 128 = 0
    · have hv : v < 128 := by omega
      simp [h, readVarint, Nat.mod_eq_of_lt hv, hv]
    · have hlt : v / 128 < v := Nat.div_lt_self (by omega) (by norm_num)
      simp only [if_neg h, List.cons_append, readVarint]
      rw [if_neg (by omega)]
      rw [ih (v / 128) hlt]
      have hv : v % 128 + 128 * (v / 128) = v := by omega
      simp [hv]

theorem readBytes_append (k rest : List Nat) :
    readBytes k.length (k ++ rest) = some (k, rest) := by
  simp [readBytes, List.take_left, List.drop_left]

theorem readRowBinaryRecord_encode (k v rest : List Nat) :
    readRowBinaryRecord (encodeRowBinary k v ++ rest) = some ((k, v), rest) := by
  simp only [encodeRowBinary, readRowBinaryRecord, List.append_assoc,
    readVarint_write, readBytes_append]

/-! ### Generic spawn loop

All three loaders spawn threads with `for thread_id in 0..num_threads { if guard
fails { break } ... }`; this is `takeWhile` over `List.range`.  The lemmas below
are proved over `List.range' s n` so that induction peels one thread at a time. -/

/-- The list of values produced by a `for i in s..s+n` loop that `break`s at the
first `i` with `g i = false` and otherwise pushes `f i`. -/
def rangeTakeMap (f : Nat → α) (g : Nat → Bool) (s n : Nat) : List α :=
  ((List.range' s n).takeWhile g).map f

theorem rangeTakeMap_zero (f : Nat → α) (g : Nat → Bool) (s : Nat) :
    rangeTakeMap f g s 0 = [] := rfl

theorem rangeTakeMap_succ (f : Nat → α) (g : Nat → Bool) (s n : Nat) :
    rangeTakeMap f g s (n + 1) =
      if g s then f s :: rangeTakeMap f g (s + 1) n else [] := by
  simp only [rangeTakeMap, List.range'_succ, List.takeWhile_cons]
  by_cases h : g s <;> simp [h]

/-- Membership in the spawn loop's output, for a guard that can only turn off
(monotone downward): exactly the `f j` with `j` in range and `g j` true. -/
theorem rangeTakeMap_mem (f : Nat → α) (g : Nat → Bool)
    (mono : ∀ a b : Nat, a ≤ b → g b = true → g a = true) (s n : Nat) (x : α) :
    x ∈ rangeTakeMap f g s n ↔
      ∃ j, s ≤ j ∧ j < s + n ∧ g j = true ∧ x = f j := by
  induction n generalizing s with
  | zero => simp [rangeTakeMap_zero]; omega
  | succ m ih =>
    rw [rangeTakeMap_succ]
    by_cases h : g s
    · simp only [if_pos h, List.mem_cons, ih (s + 1)]
      constructor
      · rintro (rfl | ⟨j, hj1, hj2, hj3, rfl⟩)
        · exact ⟨s, le_refl s, by omega, h, rfl⟩
        · exact ⟨j, by omega, by omega, hj3, rfl⟩
      · rintro ⟨j, hj1, hj2, hj3, rfl⟩
        rcases Nat.eq_or_lt_of_le hj1 with rfl | hlt
        · exact Or.inl rfl
        · exact Or.inr ⟨j, by omega, by omega, hj3, rfl⟩
    · simp only [if_neg h, List.not_mem_nil, false_iff]
      rintro ⟨j, hj1, hj2, hj3, rfl⟩
      exact h (mono s j hj1 hj3)

theorem rangeTakeMap_head? (f : Nat → α) (g : Nat → Bool) (s n : Nat) :
    (rangeTakeMap f g s n).head? =
      if 0 < n ∧ g s then some (f s) else none := by
  cases n with
  | zero => simp [rangeTakeMap_zero]
  | succ m =>
    rw [rangeTakeMap_succ]
    by_cases h : g s <;> simp [h]

theorem rangeTakeMap_chain' (R : α → α → Prop) (f : Nat → α) (g : Nat → Bool)
    (step : ∀ j : Nat, g j = true → g (j + 1) = true → R (f j) (f (j + 1)))
    (s n : Nat) : List.Chain' R (rangeTakeMap f g s n) := by
  induction n generalizing s with
  | zero => simp [rangeTakeMap_zero]
  | succ m ih =>
    rw [rangeTakeMap_succ]
    by_cases h : g s
    · rw [if_pos h, List.chain'_cons']
      refine ⟨?_, ih (s + 1)⟩
      intro y hy
      rw [rangeTakeMap_head?] at hy
      by_cases h2 : 0 < m ∧ g (s + 1)
      · rw [if_pos h2] at hy
        cases hy
        exact step s h h2.2
      · rw [if_neg h2] at hy
        cases hy
    · simp [h]

/-- The last element pushed by the spawn loop: some `f j` whose guard holds and
after which the loop stopped (either the range was exhausted or the guard of
`j + 1` fails). -/
theorem rangeTakeMap_getLast? (f : Nat → α) (g : Nat → Bool) (s n : Nat)
    (hne : rangeTakeMap f g s n ≠ []) :
    ∃ j, s ≤ j ∧ j < s + n ∧ g j = true ∧
      (j + 1 = s + n ∨ g (j + 1) = false) ∧
      (rangeTakeMap f g s n).getLast? = some (f j) := by
  induction n generalizing s with
  | zero => simp [rangeTakeMap_zero] at hne
  | succ m ih =>
    rw [rangeTakeMap_succ] at hne ⊢
    by_cases h : g s
    · rw [if_pos h] at hne ⊢
      by_cases h2 : rangeTakeMap f g (s + 1) m = []
      · refine ⟨s, le_refl s, by omega, h, ?_, by simp [h2]⟩
        cases m with
        | zero => exact Or.inl (by omega)
        | succ m' =>
          rw [rangeTakeMap_succ] at h2
          by_cases h3 : g (s + 1)
          · simp [h3] at h2
          · exact Or.inr (by simpa using h3)
      · obtain ⟨j, hj1, hj2, hj3, hj4, hj5⟩ := ih (s + 1) h2
        refine ⟨j, by omega, by omega, hj3, ?_, ?_⟩
        · rcases hj4 with h4 | h4
          · exact Or.inl (by omega)
          · exact Or.inr h4
        · cases hl : rangeTakeMap f g (s + 1) m with
          | nil => exact absurd hl h2
          | cons a t =>
            rw [List.getLast?_cons_cons, ← hl, hj5]
    · simp [h] at hne

/-! ### Fixed-format (gensort) partition planner -/

/-- Thread `i`'s record range: `[i*perThread, min((i+1)*perThread, total))`. -/
def gensortRange (perThread total i : Nat) : Nat × Nat :=
  (i * perThread, min ((i + 1) * perThread) total)

/-- Translated from `load_gensort_parallel` (load_duckdb.rs 125–134, and the
identical loops in load_clickhouse.rs / load_postgres.rs):
`records_per_thread = (total + n - 1) / n`; each thread owns
`[i*per, min((i+1)*per, total))`; the loop breaks at the first thread whose
start record reaches `total`. -/
def gensortPartitions (totalRecords numThreads : Nat) : List (Nat × Nat) :=
  let perThread := (totalRecords + numThreads - 1) / numThreads
  rangeTakeMap (gensortRange perThread totalRecords)
    (fun i => decide (i * perThread < totalRecords)) 0 numThreads

theorem gensort_guard_mono (p T : Nat) :
    ∀ a b : Nat, a ≤ b → decide (b * p < T) = true → decide (a * p < T) = true := by
  intro a b hab hb
  simp only [decide_eq_true_eq] at *
  exact lt_of_le_of_lt (Nat.mul_le_mul_right p hab) hb

/-- Ceiling division: `n * ((T + n - 1) / n) ≥ T` for `n ≥ 1`. -/
theorem ceil_div_mul_ge (T n : Nat) (hn : 1 ≤ n) :
    T ≤ n * ((T + n - 1) / n) := by
  have h1 := Nat.div_add_mod (T + n - 1) n
  have h2 : (T + n - 1) % n < n := Nat.mod_lt _ (by omega)
  omega

theorem gensortPartitions_mem (T n : Nat) (pr : Nat × Nat) :
    pr ∈ gensortPartitions T n ↔
      ∃ i, i < n ∧ i * ((T + n - 1) / n) < T ∧
        pr = gensortRange ((T + n - 1) / n) T i := by
  rw [gensortPartitions, rangeTakeMap_mem _ _ (gensort_guard_mono _ T)]
  simp only [Nat.zero_le, Nat.zero_add, decide_eq_true_eq, true_and]

/-- Sum of the spawned range sizes, over a tail of the loop. -/
theorem gensort_sum_from (p T n : Nat) (hT : T ≤ n * p) :
    ∀ (m s : Nat), s + m = n →
      ((rangeTakeMap (gensortRange p T)
        (fun i => decide (i * p < T)) s m).map (fun pr => pr.2 - pr.1)).sum
        = T - s * p := by
  intro m
  induction m with
  | zero =>
    intro s hs
    rw [rangeTakeMap_zero]
    have : T ≤ s * p := by
      subst hs; simpa [Nat.mul_comm] using hT
    simp
    omega
  | succ m ih =>
    intro s hs
    rw [rangeTakeMap_succ]
    by_cases h : s * p < T
    · rw [if_pos (by simpa using h)]
      simp only [List.map_cons, List.sum_cons, gensortRange]
      rw [ih (s + 1) (by omega)]
      have hsucc : (s + 1) * p = s * p + p := by ring
      rcases Nat.le_total ((s + 1) * p) T with hle | hle
      · rw [min_eq_left hle]; omega
      · rw [min_eq_right hle]; omega
    · rw [if_neg (by simpa using h)]
      simp
      omega

/-- Every record index below `T` is covered by some spawned range. -/
theorem gensort_cover_from (p T n : Nat) (hT : T ≤ n * p) :
    ∀ (m s r : Nat), s + m = n → s * p ≤ r → r < T →
      ∃ pr ∈ rangeTakeMap (gensortRange p T)
          (fun i => decide (i * p < T)) s m, pr.1 ≤ r ∧ r < pr.2 := by
  intro m
  induction m with
  | zero =>
    intro s r hs hr1 hr2
    exfalso
    have : T ≤ s * p := by subst hs; simpa [Nat.mul_comm] using hT
    omega
  | succ m ih =>
    intro s r hs hr1 hr2
    rw [rangeTakeMap_succ]
    have hg : s * p < T := lt_of_le_of_lt hr1 hr2
    rw [if_pos (by simpa using hg)]
    have hsucc : (s + 1) * p = s * p + p := by ring
    by_cases hr : r < (s + 1) * p
    · exact ⟨gensortRange p T s, List.mem_cons_self _ _,
        hr1, by simp [gensortRange]; omega⟩
    · obtain ⟨pr, hpr1, hpr2⟩ := ih (s + 1) r (by omega) (by omega) hr2
      exact ⟨pr, List.mem_cons_of_mem _ hpr1, hpr2⟩

/-- Elements of the spawn loop's output are pairwise ordered, whenever the
per-index values are: `rangeTakeMap` is a map over a sublist of `range'`. -/
theorem rangeTakeMap_pairwise (R : α → α → Prop) (f : Nat → α) (g : Nat → Bool)
    (hf : ∀ a b : Nat, a < b → R (f a) (f b)) (s n : Nat) :
    List.Pairwise R (rangeTakeMap f g s n) := by
  have h1 : List.Pairwise (· < ·) (List.range' s n) := List.pairwise_lt_range' s n
  have h2 : List.Pairwise (· < ·) ((List.range' s n).takeWhile g) :=
    h1.sublist (List.takeWhile_sublist g)
  exact h2.map f hf

theorem gensort_pairwise (T n : Nat) :
    List.Pairwise (fun a b : Nat × Nat => a.2 ≤ b.1) (gensortPartitions T n) := by
  apply rangeTakeMap_pairwise
  intro a b hab
  simp only [gensortRange]
  calc min ((a + 1) * ((T + n - 1) / n)) T ≤ (a + 1) * ((T + n - 1) / n) :=
        min_le_left _ _
    _ ≤ b * ((T + n - 1) / n) := Nat.mul_le_mul_right _ hab

/-! ### Fixed-format producer and loader (`send_gensort_chunk_batched`,
`load_gensort_parallel` in load_duckdb.rs) -/

/-- One producer's read loop: `count` consecutive 100-byte `read_exact`s
starting at byte `pos`; a short read is a fatal error (`none`). -/
def readGensortRecords (file : List Nat) (pos : Nat) : Nat → Option (List (List Nat))
  | 0 => some []
  | count + 1 =>
    if pos + 100 ≤ file.length then
      match readGensortRecords file (pos + 100) count with
      | some rest => some ((file.drop pos).take 100 :: rest)
      | none => none
    else none

/-- Translated from `send_gensort_chunk_batched`: seek to `start_record * 100`,
read `end_record - start_record` records and send them (batching preserves the
record multiset and count, so the records themselves are returned). -/
def send_gensort_chunk_batched (file : List Nat) (startRecord endRecord : Nat) :
    Option (List (List Nat)) :=
  readGensortRecords file (startRecord * 100) (endRecord - startRecord)

/-- Sequential composition of the producers, as the consumer observes them:
any producer failure fails the load. -/
def optionTraverse (f : α → Option β) : List α → Option (List β)
  | [] => some []
  | a :: l =>
    match f a, optionTraverse f l with
    | some b, some bs => some (b :: bs)
    | _, _ => none

/-- Translated from `load_gensort_parallel` (load_duckdb.rs): `total_records =
file_size / 100`; the single-thread path reads `total_records` records and
returns `total_records`; the multi-thread path spawns one producer per
partition and the consumer counts every record of every batch it receives. -/
def load_gensort_parallel (file : List Nat) (numThreads : Nat) : Option Nat :=
  let totalRecords := file.length / 100
  if numThreads = 1 then
    (readGensortRecords file 0 totalRecords).map (fun _ => totalRecords)
  else
    (optionTraverse (fun pr => send_gensort_chunk_batched file pr.1 pr.2)
        (gensortPartitions totalRecords numThreads)).map
      (fun ls => (ls.map List.length).sum)

theorem readGensortRecords_success (file : List Nat) :
    ∀ (count pos : Nat), pos + 100 * count ≤ file.length →
      ∃ recs, readGensortRecords file pos count = some recs ∧
        recs.length = count ∧ ∀ r ∈ recs, r.length = 100 := by
  intro count
  induction count with
  | zero => intro pos _; exact ⟨[], rfl, rfl, by simp⟩
  | succ c ih =>
    intro pos hpos
    obtain ⟨recs, h1, h2, h3⟩ := ih (pos + 100) (by omega)
    refine ⟨(file.drop pos).take 100 :: recs, ?_, by simp [h2], ?_⟩
    · rw [readGensortRecords, if_pos (by omega), h1]
    · intro r hr
      rcases List.mem_cons.mp hr with rfl | hr
      · simp
        omega
      · exact h3 r hr

/-- A producer only looks at the first `pos + 100 * count` bytes: reading from
a truncated file yields the same result. -/
theorem readGensortRecords_take (file : List Nat) (m : Nat) :
    ∀ (count pos : Nat), pos + 100 * count ≤ m →
      readGensortRecords (file.take m) pos count =
        readGensortRecords file pos count := by
  intro count
  induction count with
  | zero => intro pos _; rfl
  | succ c ih =>
    intro pos hpos
    rw [readGensortRecords, readGensortRecords]
    by_cases h : pos + 100 ≤ file.length
    · rw [if_pos (by simp; omega), if_pos h, ih (pos + 100) (by omega)]
      have htk : ((file.take m).drop pos).take 100 = (file.drop pos).take 100 := by
        rw [List.drop_take]
        rw [List.take_take]
        congr 1
        omega
      rw [htk]
    · rw [if_neg (by simp; omega), if_neg h]

theorem optionTraverse_success (f : α → Option β) (g : α → β → Prop)
    (l : List α) (h : ∀ a ∈ l, ∃ b, f a = some b ∧ g a b) :
    ∃ bs, optionTraverse f l = some bs ∧ List.Forall₂ g l bs := by
  induction l with
  | nil => exact ⟨[], rfl, List.Forall₂.nil⟩
  | cons a l ih =>
    obtain ⟨b, hb, hgb⟩ := h a (List.mem_cons_self a l)
    obtain ⟨bs, hbs, hg⟩ := ih (fun x hx => h x (List.mem_cons_of_mem a hx))
    exact ⟨b :: bs, by rw [optionTraverse, hb, hbs], List.Forall₂.cons hgb hg⟩

theorem forall₂_sum_eq (l : List (Nat × Nat)) (bs : List (List (List Nat)))
    (h : List.Forall₂ (fun (pr : Nat × Nat) (b : List (List Nat)) =>
      b.length = pr.2 - pr.1) l bs) :
    (bs.map List.length).sum = (l.map (fun pr => pr.2 - pr.1)).sum := by
  induction h with
  | nil => rfl
  | cons h1 h2 ih => simp [h1, ih]

/-- Partition ends never exceed the total. -/
theorem gensortPartitions_end_le (T n : Nat) (pr : Nat × Nat)
    (h : pr ∈ gensortPartitions T n) : pr.1 < T ∧ pr.2 ≤ T := by
  obtain ⟨i, _, hi2, rfl⟩ := (gensortPartitions_mem T n pr).mp h
  exact ⟨hi2, min_le_right _ _⟩

/-- Every spawned gensort producer succeeds and reads exactly its share. -/
theorem gensort_producer_success (file : List Nat) (n : Nat) (pr : Nat × Nat)
    (h : pr ∈ gensortPartitions (file.length / 100) n) :
    ∃ recs, send_gensort_chunk_batched file pr.1 pr.2 = some recs ∧
      recs.length = pr.2 - pr.1 ∧ ∀ r ∈ recs, r.length = 100 := by
  obtain ⟨h1, h2⟩ := gensortPartitions_end_le _ n pr h
  have hle : pr.1 * 100 + 100 * (pr.2 - pr.1) ≤ file.length := by
    have : pr.2 * 100 ≤ (file.length / 100) * 100 := Nat.mul_le_mul_right _ h2
    have := Nat.div_mul_le_self file.length 100
    omega
  obtain ⟨recs, hr1, hr2, hr3⟩ :=
    readGensortRecords_success file (pr.2 - pr.1) (pr.1 * 100) hle
  exact ⟨recs, hr1, hr2, hr3⟩

theorem gensortPartitions_sum (T n : Nat) (hn : 1 ≤ n) :
    ((gensortPartitions T n).map (fun pr => pr.2 - pr.1)).sum = T := by
  have h := gensort_sum_from ((T + n - 1) / n) T n (ceil_div_mul_ge T n hn) n 0
    (by omega)
  simpa [gensortPartitions] using h

theorem gensortPartitions_cover (T n : Nat) (hn : 1 ≤ n) (r : Nat) (hr : r < T) :
    ∃ pr ∈ gensortPartitions T n, pr.1 ≤ r ∧ r < pr.2 := by
  have h := gensort_cover_from ((T + n - 1) / n) T n (ceil_div_mul_ge T n hn) n 0 r
    (by omega) (by omega) hr
  simpa [gensortPartitions] using h

theorem gensortPartitions_disjoint (T n : Nat) (pr₁ pr₂ : Nat × Nat)
    (h1 : pr₁ ∈ gensortPartitions T n) (h2 : pr₂ ∈ gensortPartitions T n)
    (r : Nat) (ha : pr₁.1 ≤ r) (hb : r < pr₁.2) (hc : pr₂.1 ≤ r) (hd : r < pr₂.2) :
    pr₁ = pr₂ := by
  obtain ⟨i, hi1, hi2, rfl⟩ := (gensortPartitions_mem T n _).mp h1
  obtain ⟨j, hj1, hj2, rfl⟩ := (gensortPartitions_mem T n _).mp h2
  simp only [gensortRange] at ha hb hc hd
  rcases Nat.lt_trichotomy i j with hij | rfl | hij
  · exfalso
    have hm : (i + 1) * ((T + n - 1) / n) ≤ j * ((T + n - 1) / n) :=
      Nat.mul_le_mul_right _ hij
    have hb2 := lt_of_lt_of_le hb (min_le_left _ _)
    omega
  · rfl
  · exfalso
    have hm : (j + 1) * ((T + n - 1) / n) ≤ i * ((T + n - 1) / n) :=
      Nat.mul_le_mul_right _ hij
    have hd2 := lt_of_lt_of_le hd (min_le_left _ _)
    omega

theorem gensortPartitions_nonempty (T n : Nat) (hn : 1 ≤ n) (pr : Nat × Nat)
    (h : pr ∈ gensortPartitions T n) : pr.1 < pr.2 := by
  obtain ⟨i, hi1, hi2, rfl⟩ := (gensortPartitions_mem T n _).mp h
  have hT := ceil_div_mul_ge T n hn
  simp only [gensortRange]
  have hp : 0 < (T + n - 1) / n := by
    rcases Nat.eq_zero_or_pos ((T + n - 1) / n) with h0 | h0
    · rw [h0] at hT hi2
      omega
    · exact h0
  have : i * ((T + n - 1) / n) < (i + 1) * ((T + n - 1) / n) := by
    have : (i + 1) * ((T + n - 1) / n) = i * ((T + n - 1) / n) + (T + n - 1) / n := by
      ring
    omega
  exact lt_min this hi2

/-- The loader always succeeds and returns `file_size / 100`, on both the
single-thread and the partitioned path. -/
theorem load_gensort_parallel_eq (file : List Nat) (numThreads : Nat)
    (h : 1 ≤ numThreads) :
    load_gensort_parallel file numThreads = some (file.length / 100) := by
  rw [load_gensort_parallel]
  by_cases h1 : numThreads = 1
  · rw [if_pos h1]
    obtain ⟨recs, hr1, _, _⟩ := readGensortRecords_success file
      (file.length / 100) 0 (by have := Nat.div_mul_le_self file.length 100; omega)
    rw [hr1]
    rfl
  · rw [if_neg h1]
    obtain ⟨bs, hbs, hfa⟩ := optionTraverse_success
      (fun pr => send_gensort_chunk_batched file pr.1 pr.2)
      (fun pr b => b.length = pr.2 - pr.1)
      (gensortPartitions (file.length / 100) numThreads)
      (fun pr hpr => by
        obtain ⟨recs, ha, hb, _⟩ := gensort_producer_success file numThreads pr hpr
        exact ⟨recs, ha, hb⟩)
    rw [hbs]
    simp only [Option.map_some']
    rw [forall₂_sum_eq _ _ hfa, gensortPartitions_sum _ _ h]

/-- C1: for every fixed-format input and thread count `n ≥ 1`, the spawned
partitions cover the record indices `[0, file_size/100)` exactly once, every
spawned producer reads and sends exactly `end_record - start_record` records,
and the loader returns `file_size / 100` on success. -/
theorem claim_c1 (file : List Nat) (numThreads : Nat) (h : 1 ≤ numThreads) :
    load_gensort_parallel file numThreads = some (file.length / 100) ∧
    (∀ r, r < file.length / 100 →
      ∃ pr ∈ gensortPartitions (file.length / 100) numThreads,
        pr.1 ≤ r ∧ r < pr.2) ∧
    (∀ pr₁ ∈ gensortPartitions (file.length / 100) numThreads,
     ∀ pr₂ ∈ gensortPartitions (file.length / 100) numThreads,
     ∀ r, pr₁.1 ≤ r → r < pr₁.2 → pr₂.1 ≤ r → r < pr₂.2 → pr₁ = pr₂) ∧
    (∀ pr ∈ gensortPartitions (file.length / 100) numThreads,
      ∃ recs, send_gensort_chunk_batched file pr.1 pr.2 = some recs ∧
        recs.length = pr.2 - pr.1) := by
  refine ⟨load_gensort_parallel_eq file numThreads h,
    fun r hr => gensortPartitions_cover _ _ h r hr,
    fun pr₁ h1 pr₂ h2 r ha hb hc hd =>
      gensortPartitions_disjoint _ _ pr₁ pr₂ h1 h2 r ha hb hc hd,
    fun pr hpr => ?_⟩
  obtain ⟨recs, h1, h2, _⟩ := gensort_producer_success file numThreads pr hpr
  exact ⟨recs, h1, h2⟩

theorem claim_c1_witness :
    load_gensort_parallel (List.replicate 250 0) 2 = some 2 := by
  have h := (claim_c1 (List.replicate 250 0) 2 (by norm_num)).1
  have h2 : (List.replicate 250 (0 : Nat)).length / 100 = 2 := by
    simp only [List.length_replicate]
  rw [h2] at h
  exact h

/-- C2: partition planning is the pure ceiling-division function of
`(total_units, num_threads)`: membership is exactly the ceiling-division
ranges cut at `total`, each spawned range is non-empty, the ranges are
pairwise disjoint and cover `[0, total)` with no gaps or overlaps, and the
planner is deterministic. -/
theorem claim_c2 (total numThreads : Nat) (h : 1 ≤ numThreads) :
    (∀ pr : Nat × Nat, pr ∈ gensortPartitions total numThreads ↔
      ∃ i, i < numThreads ∧
        i * ((total + numThreads - 1) / numThreads) < total ∧
        pr = (i * ((total + numThreads - 1) / numThreads),
          min ((i + 1) * ((total + numThreads - 1) / numThreads)) total)) ∧
    (∀ pr ∈ gensortPartitions total numThreads, pr.1 < pr.2) ∧
    List.Pairwise (fun a b : Nat × Nat => a.2 ≤ b.1)
      (gensortPartitions total numThreads) ∧
    (∀ r, r < total →
      ∃ pr ∈ gensortPartitions total numThreads, pr.1 ≤ r ∧ r < pr.2) ∧
    (∀ pr₁ ∈ gensortPartitions total numThreads,
     ∀ pr₂ ∈ gensortPartitions total numThreads,
     ∀ r, pr₁.1 ≤ r → r < pr₁.2 → pr₂.1 ≤ r → r < pr₂.2 → pr₁ = pr₂) ∧
    (∀ total' numThreads', total' = total → numThreads' = numThreads →
      gensortPartitions total' numThreads' = gensortPartitions total numThreads) := by
  refine ⟨fun pr => ?_, gensortPartitions_nonempty total numThreads h,
    gensort_pairwise total numThreads,
    fun r hr => gensortPartitions_cover total numThreads h r hr,
    fun pr₁ h1 pr₂ h2 r ha hb hc hd =>
      gensortPartitions_disjoint total numThreads pr₁ pr₂ h1 h2 r ha hb hc hd,
    fun _ _ h1 h2 => by rw [h1, h2]⟩
  rw [gensortPartitions_mem]
  simp only [gensortRange, min_def]

theorem claim_c2_witness :
    ∃ pr ∈ gensortPartitions 5 2, pr.1 ≤ 4 ∧ 4 < pr.2 :=
  (claim_c2 5 2 (by norm_num)).2.2.2.1 4 (by norm_num)

/-- C10: when the fixed-format file size is not a multiple of 100 the loader
still succeeds with exactly `file_size / 100` records, and every producer's
read is unchanged if the trailing partial record is cut off the file — the
partial record is silently ignored, never reported as truncation. -/
theorem claim_c10 (file : List Nat) (numThreads : Nat) (h : 1 ≤ numThreads)
    (_hmod : ¬ (100 ∣ file.length)) :
    load_gensort_parallel file numThreads = some (file.length / 100) ∧
    (∀ pr ∈ gensortPartitions (file.length / 100) numThreads,
      send_gensort_chunk_batched (file.take (100 * (file.length / 100))) pr.1 pr.2 =
        send_gensort_chunk_batched file pr.1 pr.2) := by
  refine ⟨load_gensort_parallel_eq file numThreads h, fun pr hpr => ?_⟩
  obtain ⟨h1, h2⟩ := gensortPartitions_end_le _ numThreads pr hpr
  rw [send_gensort_chunk_batched, send_gensort_chunk_batched]
  exact readGensortRecords_take file _ _ _ (by
    have : pr.2 * 100 ≤ (file.length / 100) * 100 := Nat.mul_le_mul_right _ h2
    omega)

theorem claim_c10_witness :
    load_gensort_parallel (List.replicate 250 7) 2 = some 2 := by
  have h := (claim_c10 (List.replicate 250 7) 2 (by norm_num) (by norm_num)).1
  have h2 : (List.replicate 250 (7 : Nat)).length / 100 = 2 := by
    simp only [List.length_replicate]
  rw [h2] at h
  exact h

/-! ### Offset index loading (`load_index` in load_duckdb.rs / load_clickhouse.rs) -/

/-- `chunks_exact(8)`: full 8-byte chunks, any shorter remainder is dropped. -/
def chunks8 : List Nat → List (List Nat)
  | b0 :: b1 :: b2 :: b3 :: b4 :: b5 :: b6 :: b7 :: rest =>
    [b0, b1, b2, b3, b4, b5, b6, b7] :: chunks8 rest
  | _ => []

/-- `u64::from_le_bytes` on one chunk. -/
def u64le (c : List Nat) : Nat := c.foldr (fun b acc => b + 256 * acc) 0

/-- The u64 values stored in the index file, in on-disk order. -/
def parseIndexEntries (idx : List Nat) : List Nat := (chunks8 idx).map u64le

/-- `Vec::dedup`: removes consecutive duplicates. -/
def dedupAdj : List Nat → List Nat
  | [] => []
  | [a] => [a]
  | a :: b :: rest =>
    if a = b then dedupAdj (b :: rest) else a :: dedupAdj (b :: rest)

theorem dedupAdj_cons_cons (a b : Nat) (r : List Nat) :
    dedupAdj (a :: b :: r) =
      if a = b then dedupAdj (b :: r) else a :: dedupAdj (b :: r) := rfl

/-- Translated from `load_index`: start from `[0]`, append every stored entry
with `0 < off < file_size`, push `file_size`, sort, dedup. -/
def load_index (idx : List Nat) (fileSize : Nat) : List Nat :=
  dedupAdj (List.insertionSort (· ≤ ·)
    (0 :: ((parseIndexEntries idx).filter
        (fun off => decide (0 < off) && decide (off < fileSize)) ++ [fileSize])))

theorem mem_dedupAdj (l : List Nat) (x : Nat) : x ∈ dedupAdj l ↔ x ∈ l := by
  induction l with
  | nil => simp [dedupAdj]
  | cons a t ih =>
    cases t with
    | nil => simp [dedupAdj]
    | cons b r =>
      rw [dedupAdj_cons_cons]
      by_cases hab : a = b
      · rw [if_pos hab, ih]
        subst hab
        constructor
        · exact fun hx => List.mem_cons_of_mem _ hx
        · intro hx
          rcases List.mem_cons.mp hx with rfl | hx
          · exact List.mem_cons_self _ _
          · exact hx
      · rw [if_neg hab]
        simp [List.mem_cons, ih]

theorem head?_dedupAdj (l : List Nat) : (dedupAdj l).head? = l.head? := by
  induction l with
  | nil => rfl
  | cons a t ih =>
    cases t with
    | nil => rfl
    | cons b r =>
      rw [dedupAdj_cons_cons]
      by_cases hab : a = b
      · rw [if_pos hab, ih]
        simp [hab]
      · rw [if_neg hab]
        rfl

theorem getLast?_dedupAdj (l : List Nat) : (dedupAdj l).getLast? = l.getLast? := by
  induction l with
  | nil => rfl
  | cons a t ih =>
    cases t with
    | nil => rfl
    | cons b r =>
      rw [dedupAdj_cons_cons, List.getLast?_cons_cons]
      by_cases hab : a = b
      · rw [if_pos hab, ih]
      · rw [if_neg hab]
        cases hl : dedupAdj (b :: r) with
        | nil =>
          have hh := head?_dedupAdj (b :: r)
          rw [hl] at hh
          simp at hh
        | cons c s =>
          rw [List.getLast?_cons_cons, ← hl, ih]

theorem chain'_lt_dedupAdj (l : List Nat) (h : List.Chain' (· ≤ ·) l) :
    List.Chain' (· < ·) (dedupAdj l) := by
  induction l with
  | nil => simp [dedupAdj]
  | cons a t ih =>
    cases t with
    | nil => simp [dedupAdj]
    | cons b r =>
      rw [List.chain'_cons] at h
      rw [dedupAdj_cons_cons]
      by_cases hab : a = b
      · rw [if_pos hab]
        exact ih h.2
      · rw [if_neg hab, List.chain'_cons']
        refine ⟨fun y hy => ?_, ih h.2⟩
        rw [head?_dedupAdj] at hy
        simp only [List.head?_cons, Option.mem_def, Option.some.injEq] at hy
        subst hy
        omega

theorem sorted_le_load_base (idx : List Nat) (fs : Nat) :
    List.Sorted (· ≤ ·) (List.insertionSort (· ≤ ·)
      (0 :: ((parseIndexEntries idx).filter
        (fun off => decide (0 < off) && decide (off < fs)) ++ [fs]))) :=
  List.sorted_insertionSort _ _

theorem head?_eq_zero_of_sorted (l : List Nat) (hs : List.Sorted (· ≤ ·) l)
    (h0 : 0 ∈ l) : l.head? = some 0 := by
  cases l with
  | nil => simp at h0
  | cons a t =>
    rcases List.mem_cons.mp h0 with rfl | h0
    · rfl
    · have := (List.sorted_cons.mp hs).1 0 h0
      simp
      omega

theorem getLast?_eq_of_sorted (l : List Nat) (m : Nat) :
    List.Sorted (· ≤ ·) l → m ∈ l → (∀ x ∈ l, x ≤ m) → l.getLast? = some m := by
  induction l with
  | nil => intro _ h _; simp at h
  | cons a t ih =>
    intro hs hm hub
    cases t with
    | nil =>
      rcases List.mem_cons.mp hm with rfl | h
      · rfl
      · simp at h
    | cons b r =>
      rw [List.getLast?_cons_cons]
      refine ih (List.sorted_cons.mp hs).2 ?_
        (fun x hx => hub x (List.mem_cons_of_mem a hx))
      rcases List.mem_cons.mp hm with rfl | hm2
      · have hab := (List.sorted_cons.mp hs).1 b (List.mem_cons_self b r)
        have hbm := hub b (by simp)
        have hbm2 : b = m := le_antisymm hbm hab
        exact hbm2 ▸ List.mem_cons_self b r
      · exact hm2

theorem load_index_pairwise_lt (idx : List Nat) (fs : Nat) :
    List.Pairwise (· < ·) (load_index idx fs) := by
  rw [load_index]
  have hc : List.Chain' (· ≤ ·) (List.insertionSort (· ≤ ·)
      (0 :: ((parseIndexEntries idx).filter
        (fun off => decide (0 < off) && decide (off < fs)) ++ [fs]))) :=
    (sorted_le_load_base idx fs).chain'
  exact List.chain'_iff_pairwise.mp (chain'_lt_dedupAdj _ hc)

theorem load_index_head? (idx : List Nat) (fs : Nat) :
    (load_index idx fs).head? = some 0 := by
  rw [load_index, head?_dedupAdj]
  refine head?_eq_zero_of_sorted _ (sorted_le_load_base idx fs) ?_
  rw [(List.perm_insertionSort _ _).mem_iff]
  simp

theorem load_index_getLast? (idx : List Nat) (fs : Nat) :
    (load_index idx fs).getLast? = some fs := by
  rw [load_index, getLast?_dedupAdj]
  refine getLast?_eq_of_sorted _ fs (sorted_le_load_base idx fs) ?_ ?_
  · rw [(List.perm_insertionSort _ _).mem_iff]
    simp
  · intro x hx
    rw [(List.perm_insertionSort _ _).mem_iff] at hx
    simp only [List.mem_cons, List.mem_append, List.mem_filter,
      List.mem_singleton, Bool.and_eq_true, decide_eq_true_eq] at hx
    rcases hx with rfl | hx
    · omega
    rcases hx with ⟨_, _, h⟩ | hx
    · omega
    simp at hx
    omega

theorem mem_load_index (idx : List Nat) (fs x : Nat) :
    x ∈ load_index idx fs ↔
      x = 0 ∨ x = fs ∨ (x ∈ parseIndexEntries idx ∧ 0 < x ∧ x < fs) := by
  rw [load_index, mem_dedupAdj, (List.perm_insertionSort _ _).mem_iff]
  simp only [List.mem_cons, List.mem_append, List.mem_filter,
    List.mem_singleton, Bool.and_eq_true, decide_eq_true_eq]
  tauto

/-- C4: for every index-file byte content and every file size, the loaded
offset sequence is strictly increasing, begins with 0, ends with `file_size`,
and contains exactly the sentinels plus the stored entries inside
`(0, file_size)` — entries outside the range are silently dropped and on-disk
order/duplication is corrected (the pure model never fails). -/
theorem claim_c4 (idx : List Nat) (fs : Nat) :
    List.Pairwise (· < ·) (load_index idx fs) ∧
    (load_index idx fs).head? = some 0 ∧
    (load_index idx fs).getLast? = some fs ∧
    (∀ x, x ∈ load_index idx fs ↔
      x = 0 ∨ x = fs ∨ (x ∈ parseIndexEntries idx ∧ 0 < x ∧ x < fs)) :=
  ⟨load_index_pairwise_lt idx fs, load_index_head? idx fs,
    load_index_getLast? idx fs, fun x => mem_load_index idx fs x⟩

/-! ### Variable-format (kvbin) partition planner
(`load_kvbin_parallel` in load_duckdb.rs, `load_kvbin_streaming` in
load_clickhouse.rs) -/

/-- Translated from the kvbin spawn loop: units are index positions;
`partitions_per_thread = ceil(len / n)`; thread `i` is spawned while
`i * ppt < len - 1`, and its byte range is
`[offsets[i*ppt], offsets[min(min((i+1)*ppt, len), len-1)])`. -/
def kvbinPartitions (offsets : List Nat) (numThreads : Nat) : List (Nat × Nat) :=
  let len := offsets.length
  let ppt := (len + numThreads - 1) / numThreads
  rangeTakeMap
    (fun i => (offsets.getD (i * ppt) 0,
      offsets.getD (min (min ((i + 1) * ppt) len) (len - 1)) 0))
    (fun i => decide (i * ppt < len - 1)) 0 numThreads

/-! ### Variable-format record layout and decoder
(`send_kvbin_chunk_indexed` in load_duckdb.rs; the identical read loop of
`format_kvbin_to_rowbinary` in load_clickhouse.rs) -/

/-- `u32::from_le_bytes` on the first four bytes of the remaining input;
`none` models `read_exact` hitting end-of-file (fewer than 4 bytes left). -/
def readU32 : List Nat → Option Nat
  | b0 :: b1 :: b2 :: b3 :: _ => some (b0 + 256 * b1 + 65536 * b2 + 16777216 * b3)
  | _ => none

theorem readU32_length_ge (l : List Nat) (k : Nat) (h : readU32 l = some k) :
    4 ≤ l.length := by
  match l with
  | b0 :: b1 :: b2 :: b3 :: _ => simp
  | [] => simp [readU32] at h
  | [b0] => simp [readU32] at h
  | [b0, b1] => simp [readU32] at h
  | [b0, b1, b2] => simp [readU32] at h

/-- Translated from `send_kvbin_chunk_indexed`: while `current_pos <
end_offset`, read a 4-byte key length (an `UnexpectedEof` here `break`s out
returning the rows so far), the key bytes, a 4-byte value length and the value
bytes (an EOF in any of those is a fatal error), advance `current_pos` by
`8 + klen + vlen` and emit the record. -/
def send_kvbin_chunk_indexed (file : List Nat) (pos endOff : Nat) :
    Except Unit (List (List Nat × List Nat)) :=
  if h : pos < endOff then
    match readU32 (file.drop pos) with
    | none => .ok []
    | some klen =>
      if klen ≤ (file.drop (pos + 4)).length then
        match readU32 (file.drop (pos + 4 + klen)) with
        | none => .error ()
        | some vlen =>
          if vlen ≤ (file.drop (pos + 8 + klen)).length then
            match send_kvbin_chunk_indexed file (pos + 8 + klen + vlen) endOff with
            | .ok rest =>
              .ok (((file.drop (pos + 4)).take klen,
                    (file.drop (pos + 8 + klen)).take vlen) :: rest)
            | .error e => .error e
          else .error ()
      else .error ()
  else .ok []
termination_by endOff - pos
decreasing_by omega

/-- Translated from the sequential kvbin read loops (`load_kvbin_parallel`'s
else-branch, `format_kvbin_sequential_to_rowbinary`, `load_kvbin` in
load_postgres.rs): same record loop but with no `end_offset` — it runs until
an EOF at the key-length read, which is graceful completion. -/
def kvbin_sequential_records (file : List Nat) (pos : Nat) :
    Except Unit (List (List Nat × List Nat)) :=
  match hk : readU32 (file.drop pos) with
  | none => .ok []
  | some klen =>
    if klen ≤ (file.drop (pos + 4)).length then
      match readU32 (file.drop (pos + 4 + klen)) with
      | none => .error ()
      | some vlen =>
        if vlen ≤ (file.drop (pos + 8 + klen)).length then
          match kvbin_sequential_records file (pos + 8 + klen + vlen) with
          | .ok rest =>
            .ok (((file.drop (pos + 4)).take klen,
                  (file.drop (pos + 8 + klen)).take vlen) :: rest)
          | .error e => .error e
        else .error ()
    else .error ()
termination_by file.length - pos
decreasing_by
  have h4 := readU32_length_ge _ _ hk
  simp only [List.length_drop] at h4
  omega

/-- `u32::to_le_bytes`. -/
def u32leBytes (n : Nat) : List Nat :=
  [n % 256, n / 256 % 256, n / 65536 % 256, n / 16777216 % 256]

/-- One on-disk kvbin record: `u32-LE keylen, key, u32-LE vallen, value`. -/
def encodeKvRecord (r : List Nat × List Nat) : List Nat :=
  u32leBytes r.1.length ++ r.1 ++ u32leBytes r.2.length ++ r.2

/-- A kvbin file: the concatenation of its records' encodings. -/
def encodeKvFile (rs : List (List Nat × List Nat)) : List Nat :=
  (rs.map encodeKvRecord).flatten

/-- `pos` is the byte position of a record boundary of the file encoding `rs`
(including position 0 and the end-of-file position). -/
def isRecordStart (rs : List (List Nat × List Nat)) (pos : Nat) : Prop :=
  ∃ a b, rs = a ++ b ∧ pos = (encodeKvFile a).length

/-- Both field lengths of every record fit in a `u32` (anything else cannot
exist on disk, since the lengths are stored as `u32`). -/
def kvWellFormed (rs : List (List Nat × List Nat)) : Prop :=
  ∀ r ∈ rs, r.1.length < 2 ^ 32 ∧ r.2.length < 2 ^ 32

theorem readU32_u32leBytes (n : Nat) (hn : n < 2 ^ 32) (rest : List Nat) :
    readU32 (u32leBytes n ++ rest) = some n := by
  simp only [u32leBytes, List.cons_append, List.nil_append, readU32,
    Option.some.injEq]
  omega

theorem encodeKvRecord_length (r : List Nat × List Nat) :
    (encodeKvRecord r).length = 8 + r.1.length + r.2.length := by
  simp [encodeKvRecord, u32leBytes]
  omega

theorem encodeKvFile_cons (r : List Nat × List Nat)
    (rs : List (List Nat × List Nat)) :
    encodeKvFile (r :: rs) = encodeKvRecord r ++ encodeKvFile rs := by
  simp [encodeKvFile]

theorem encodeKvFile_append (a b : List (List Nat × List Nat)) :
    encodeKvFile (a ++ b) = encodeKvFile a ++ encodeKvFile b := by
  simp [encodeKvFile]

/-! ### One-step evaluation lemmas for the decoders -/

theorem send_kvbin_done (file : List Nat) (pos endOff : Nat)
    (h : ¬ pos < endOff) :
    send_kvbin_chunk_indexed file pos endOff = .ok [] := by
  rw [send_kvbin_chunk_indexed, dif_neg h]

theorem send_kvbin_eof_graceful (file : List Nat) (pos endOff : Nat)
    (h : pos < endOff) (hk : readU32 (file.drop pos) = none) :
    send_kvbin_chunk_indexed file pos endOff = .ok [] := by
  rw [send_kvbin_chunk_indexed, dif_pos h]
  simp only [hk]

theorem send_kvbin_short_key (file : List Nat) (pos endOff klen : Nat)
    (h : pos < endOff) (hk : readU32 (file.drop pos) = some klen)
    (hkl : ¬ klen ≤ (file.drop (pos + 4)).length) :
    send_kvbin_chunk_indexed file pos endOff = .error () := by
  rw [send_kvbin_chunk_indexed, dif_pos h]
  simp only [hk]
  rw [if_neg hkl]

theorem send_kvbin_short_vlen (file : List Nat) (pos endOff klen : Nat)
    (h : pos < endOff) (hk : readU32 (file.drop pos) = some klen)
    (hkl : klen ≤ (file.drop (pos + 4)).length)
    (hv : readU32 (file.drop (pos + 4 + klen)) = none) :
    send_kvbin_chunk_indexed file pos endOff = .error () := by
  rw [send_kvbin_chunk_indexed, dif_pos h]
  simp only [hk]
  rw [if_pos hkl]
  simp only [hv]

theorem send_kvbin_short_val (file : List Nat) (pos endOff klen vlen : Nat)
    (h : pos < endOff) (hk : readU32 (file.drop pos) = some klen)
    (hkl : klen ≤ (file.drop (pos + 4)).length)
    (hv : readU32 (file.drop (pos + 4 + klen)) = some vlen)
    (hvl : ¬ vlen ≤ (file.drop (pos + 8 + klen)).length) :
    send_kvbin_chunk_indexed file pos endOff = .error () := by
  rw [send_kvbin_chunk_indexed, dif_pos h]
  simp only [hk]
  rw [if_pos hkl]
  simp only [hv]
  rw [if_neg hvl]

theorem send_kvbin_step (file : List Nat) (pos endOff klen vlen : Nat)
    (h : pos < endOff)
    (hk : readU32 (file.drop pos) = some klen)
    (hkl : klen ≤ (file.drop (pos + 4)).length)
    (hv : readU32 (file.drop (pos + 4 + klen)) = some vlen)
    (hvl : vlen ≤ (file.drop (pos + 8 + klen)).length) :
    send_kvbin_chunk_indexed file pos endOff =
      match send_kvbin_chunk_indexed file (pos + 8 + klen + vlen) endOff with
      | .ok rest => .ok (((file.drop (pos + 4)).take klen,
            (file.drop (pos + 8 + klen)).take vlen) :: rest)
      | .error e => .error e := by
  rw [send_kvbin_chunk_indexed, dif_pos h]
  simp only [hk]
  rw [if_pos hkl]
  simp only [hv]
  rw [if_pos hvl]

theorem kvbin_sequential_eof (file : List Nat) (pos : Nat)
    (hk : readU32 (file.drop pos) = none) :
    kvbin_sequential_records file pos = .ok [] := by
  rw [kvbin_sequential_records]
  split
  · rfl
  · next klen heq =>
    rw [hk] at heq
    cases heq

theorem kvbin_sequential_short_key (file : List Nat) (pos klen : Nat)
    (hk : readU32 (file.drop pos) = some klen)
    (hkl : ¬ klen ≤ (file.drop (pos + 4)).length) :
    kvbin_sequential_records file pos = .error () := by
  rw [kvbin_sequential_records]
  split
  · next heq =>
    rw [heq] at hk
    cases hk
  · next klen' heq =>
    rw [hk] at heq
    injection heq with heq'
    subst heq'
    rw [if_neg hkl]

theorem kvbin_sequential_short_vlen (file : List Nat) (pos klen : Nat)
    (hk : readU32 (file.drop pos) = some klen)
    (hkl : klen ≤ (file.drop (pos + 4)).length)
    (hv : readU32 (file.drop (pos + 4 + klen)) = none) :
    kvbin_sequential_records file pos = .error () := by
  rw [kvbin_sequential_records]
  split
  · next heq =>
    rw [heq] at hk
    cases hk
  · next klen' heq =>
    rw [hk] at heq
    injection heq with heq'
    subst heq'
    rw [if_pos hkl]
    simp only [hv]

theorem kvbin_sequential_short_val (file : List Nat) (pos klen vlen : Nat)
    (hk : readU32 (file.drop pos) = some klen)
    (hkl : klen ≤ (file.drop (pos + 4)).length)
    (hv : readU32 (file.drop (pos + 4 + klen)) = some vlen)
    (hvl : ¬ vlen ≤ (file.drop (pos + 8 + klen)).length) :
    kvbin_sequential_records file pos = .error () := by
  rw [kvbin_sequential_records]
  split
  · next heq =>
    rw [heq] at hk
    cases hk
  · next klen' heq =>
    rw [hk] at heq
    injection heq with heq'
    subst heq'
    rw [if_pos hkl]
    simp only [hv]
    rw [if_neg hvl]

theorem kvbin_sequential_step (file : List Nat) (pos klen vlen : Nat)
    (hk : readU32 (file.drop pos) = some klen)
    (hkl : klen ≤ (file.drop (pos + 4)).length)
    (hv : readU32 (file.drop (pos + 4 + klen)) = some vlen)
    (hvl : vlen ≤ (file.drop (pos + 8 + klen)).length) :
    kvbin_sequential_records file pos =
      match kvbin_sequential_records file (pos + 8 + klen + vlen) with
      | .ok rest => .ok (((file.drop (pos + 4)).take klen,
            (file.drop (pos + 8 + klen)).take vlen) :: rest)
      | .error e => .error e := by
  rw [kvbin_sequential_records]
  split
  · next heq =>
    rw [heq] at hk
    cases hk
  · next klen' heq =>
    rw [hk] at heq
    injection heq with heq'
    subst heq'
    rw [if_pos hkl]
    simp only [hv]
    rw [if_pos hvl]

/-! ### Decoding a well-formed byte range that starts and ends on record
boundaries -/

theorem u32leBytes_length (n : Nat) : (u32leBytes n).length = 4 := rfl

theorem drop4_u32leBytes (n : Nat) (X : List Nat) :
    (u32leBytes n ++ X).drop 4 = X := by
  simp [u32leBytes]

theorem encodeKvFile_nil : encodeKvFile [] = [] := rfl

theorem drop_add (l : List Nat) (a b : Nat) :
    l.drop (a + b) = (l.drop a).drop b := by
  rw [List.drop_drop, Nat.add_comm]

/-- If the bytes from `pos` on are `encodeKvFile rs ++ tail`, the bounded
decoder run to exactly the end of `rs` succeeds and returns `rs`. -/
theorem send_kvbin_aligned (rs : List (List Nat × List Nat)) :
    ∀ (file tailBytes : List Nat) (pos : Nat),
      file.drop pos = encodeKvFile rs ++ tailBytes →
      kvWellFormed rs →
      send_kvbin_chunk_indexed file pos (pos + (encodeKvFile rs).length) =
        .ok rs := by
  induction rs with
  | nil =>
    intro file tailBytes pos _ _
    exact send_kvbin_done file pos _ (by simp [encodeKvFile_nil])
  | cons r rs' ih =>
    intro file tailBytes pos hdrop hwf
    obtain ⟨k, v⟩ := r
    have hk32 : k.length < 2 ^ 32 := (hwf _ (List.mem_cons_self _ _)).1
    have hv32 : v.length < 2 ^ 32 := (hwf _ (List.mem_cons_self _ _)).2
    have hwf' : kvWellFormed rs' := fun r hr => hwf r (List.mem_cons_of_mem _ hr)
    have hd0 : file.drop pos = u32leBytes k.length ++
        (k ++ (u32leBytes v.length ++ (v ++ (encodeKvFile rs' ++ tailBytes)))) := by
      rw [hdrop, encodeKvFile_cons]
      simp [encodeKvRecord, List.append_assoc]
    have hd4 : file.drop (pos + 4) =
        k ++ (u32leBytes v.length ++ (v ++ (encodeKvFile rs' ++ tailBytes))) := by
      rw [drop_add file pos 4, hd0, drop4_u32leBytes]
    have hd4k : file.drop (pos + 4 + k.length) =
        u32leBytes v.length ++ (v ++ (encodeKvFile rs' ++ tailBytes)) := by
      rw [drop_add file (pos + 4) k.length, hd4, List.drop_left]
    have hd8k : file.drop (pos + 8 + k.length) =
        v ++ (encodeKvFile rs' ++ tailBytes) := by
      rw [show pos + 8 + k.length = pos + 4 + k.length + 4 from by omega,
        drop_add file (pos + 4 + k.length) 4, hd4k, drop4_u32leBytes]
    have hd8kv : file.drop (pos + 8 + k.length + v.length) =
        encodeKvFile rs' ++ tailBytes := by
      rw [drop_add file (pos + 8 + k.length) v.length, hd8k, List.drop_left]
    have hlen : (encodeKvFile ((k, v) :: rs')).length =
        8 + k.length + v.length + (encodeKvFile rs').length := by
      rw [encodeKvFile_cons, List.length_append, encodeKvRecord_length]
    have hkread : readU32 (file.drop pos) = some k.length := by
      rw [hd0]; exact readU32_u32leBytes _ hk32 _
    have hkl : k.length ≤ (file.drop (pos + 4)).length := by
      rw [hd4]; simp
    have hvread : readU32 (file.drop (pos + 4 + k.length)) = some v.length := by
      rw [hd4k]; exact readU32_u32leBytes _ hv32 _
    have hvl : v.length ≤ (file.drop (pos + 8 + k.length)).length := by
      rw [hd8k]; simp
    have hstep := send_kvbin_step file pos
      (pos + (encodeKvFile ((k, v) :: rs')).length) k.length v.length
      (by rw [hlen]; omega) hkread hkl hvread hvl
    rw [hstep]
    have hrec := ih file tailBytes (pos + 8 + k.length + v.length) hd8kv hwf'
    have hend : pos + 8 + k.length + v.length + (encodeKvFile rs').length =
        pos + (encodeKvFile ((k, v) :: rs')).length := by
      rw [hlen]; omega
    rw [hend] at hrec
    rw [hrec, hd4, hd8k]
    simp [List.take_left]

/-- Sequential decode of a whole well-formed file: the final EOF at the
key-length read is graceful completion. -/
theorem kvbin_sequential_aligned (rs : List (List Nat × List Nat)) :
    ∀ (file : List Nat) (pos : Nat),
      file.drop pos = encodeKvFile rs →
      kvWellFormed rs →
      kvbin_sequential_records file pos = .ok rs := by
  induction rs with
  | nil =>
    intro file pos hdrop _
    refine kvbin_sequential_eof file pos ?_
    rw [hdrop, encodeKvFile_nil]
    rfl
  | cons r rs' ih =>
    intro file pos hdrop hwf
    obtain ⟨k, v⟩ := r
    have hk32 : k.length < 2 ^ 32 := (hwf _ (List.mem_cons_self _ _)).1
    have hv32 : v.length < 2 ^ 32 := (hwf _ (List.mem_cons_self _ _)).2
    have hwf' : kvWellFormed rs' := fun r hr => hwf r (List.mem_cons_of_mem _ hr)
    have hd0 : file.drop pos = u32leBytes k.length ++
        (k ++ (u32leBytes v.length ++ (v ++ (encodeKvFile rs' ++ [])))) := by
      rw [hdrop, encodeKvFile_cons]
      simp [encodeKvRecord, List.append_assoc]
    have hd4 : file.drop (pos + 4) =
        k ++ (u32leBytes v.length ++ (v ++ (encodeKvFile rs' ++ []))) := by
      rw [drop_add file pos 4, hd0, drop4_u32leBytes]
    have hd4k : file.drop (pos + 4 + k.length) =
        u32leBytes v.length ++ (v ++ (encodeKvFile rs' ++ [])) := by
      rw [drop_add file (pos + 4) k.length, hd4, List.drop_left]
    have hd8k : file.drop (pos + 8 + k.length) =
        v ++ (encodeKvFile rs' ++ []) := by
      rw [show pos + 8 + k.length = pos + 4 + k.length + 4 from by omega,
        drop_add file (pos + 4 + k.length) 4, hd4k, drop4_u32leBytes]
    have hd8kv : file.drop (pos + 8 + k.length + v.length) =
        encodeKvFile rs' := by
      rw [drop_add file (pos + 8 + k.length) v.length, hd8k, List.drop_left]
      simp
    have hkread : readU32 (file.drop pos) = some k.length := by
      rw [hd0]; exact readU32_u32leBytes _ hk32 _
    have hkl : k.length ≤ (file.drop (pos + 4)).length := by
      rw [hd4]; simp
    have hvread : readU32 (file.drop (pos + 4 + k.length)) = some v.length := by
      rw [hd4k]; exact readU32_u32leBytes _ hv32 _
    have hvl : v.length ≤ (file.drop (pos + 8 + k.length)).length := by
      rw [hd8k]; simp
    rw [kvbin_sequential_step file pos k.length v.length hkread hkl hvread hvl]
    rw [ih file (pos + 8 + k.length + v.length) hd8kv hwf']
    rw [hd4, hd8k]
    simp [List.take_left]

/-- Decoding any byte range of a well-formed file whose two endpoints are
record boundaries succeeds (and yields the records in between): partition
boundaries drawn from a valid index never cause a malformed length read. -/
theorem send_kvbin_boundaries (rs : List (List Nat × List Nat))
    (hwf : kvWellFormed rs) (p q : Nat)
    (hp : isRecordStart rs p) (hq : isRecordStart rs q) (hpq : p ≤ q) :
    ∃ recs, send_kvbin_chunk_indexed (encodeKvFile rs) p q = .ok recs := by
  obtain ⟨a1, b1, hab1, rfl⟩ := hp
  obtain ⟨a2, b2, hab2, rfl⟩ := hq
  have hpre1 : a1 <+: rs := ⟨b1, hab1.symm⟩
  have hpre2 : a2 <+: rs := ⟨b2, hab2.symm⟩
  rcases List.prefix_or_prefix_of_prefix hpre1 hpre2 with hpp | hpp
  · -- a1 is a prefix of a2: decode exactly the records between them
    obtain ⟨t, rfl⟩ := hpp
    have hq2 : (encodeKvFile (a1 ++ t)).length =
        (encodeKvFile a1).length + (encodeKvFile t).length := by
      rw [encodeKvFile_append, List.length_append]
    have hdrop : (encodeKvFile rs).drop (encodeKvFile a1).length =
        encodeKvFile t ++ encodeKvFile b2 := by
      conv_lhs => rw [hab2, encodeKvFile_append, encodeKvFile_append]
      rw [List.append_assoc, List.drop_left]
    have hwft : kvWellFormed t := by
      intro r hr
      refine hwf r ?_
      rw [hab2]
      simp [hr]
    refine ⟨t, ?_⟩
    rw [hq2]
    exact send_kvbin_aligned t (encodeKvFile rs) (encodeKvFile b2)
      (encodeKvFile a1).length hdrop hwft
  · -- a2 is a prefix of a1: the range is empty
    obtain ⟨t, rfl⟩ := hpp
    have hle : (encodeKvFile a2).length + (encodeKvFile t).length =
        (encodeKvFile (a2 ++ t)).length := by
      rw [encodeKvFile_append, List.length_append]
    refine ⟨[], send_kvbin_done _ _ _ ?_⟩
    omega

/-! ### Structure of the kvbin partitions -/

theorem getD_mem (l : List Nat) (i : Nat) (h : i < l.length) : l.getD i 0 ∈ l := by
  rw [List.getD_eq_getElem l 0 h]
  exact List.getElem_mem h

theorem getD_lt_getD (l : List Nat) (hp : List.Pairwise (· < ·) l) (i j : Nat)
    (hij : i < j) (hj : j < l.length) : l.getD i 0 < l.getD j 0 := by
  rw [List.getD_eq_getElem l 0 (by omega), List.getD_eq_getElem l 0 hj]
  exact List.pairwise_iff_getElem.mp hp i j (by omega) hj hij

theorem head?_getD (l : List Nat) (a : Nat) (h : l.head? = some a) :
    l.getD 0 0 = a := by
  cases l with
  | nil => simp at h
  | cons x t =>
    simp only [List.head?_cons, Option.some.injEq] at h
    simp [h]

theorem getLast?_getD (l : List Nat) (a : Nat) (h : l.getLast? = some a) :
    l.getD (l.length - 1) 0 = a := by
  rw [List.getLast?_eq_getElem?] at h
  rw [List.getD_eq_getElem?_getD, h]
  rfl

theorem kvbin_guard_mono (p T : Nat) :
    ∀ a b : Nat, a ≤ b → decide (b * p < T) = true → decide (a * p < T) = true := by
  intro a b hab hb
  simp only [decide_eq_true_eq] at *
  exact lt_of_le_of_lt (Nat.mul_le_mul_right p hab) hb

theorem kvbinPartitions_mem (offsets : List Nat) (n : Nat) (pr : Nat × Nat) :
    pr ∈ kvbinPartitions offsets n ↔
      ∃ i, i < n ∧
        i * ((offsets.length + n - 1) / n) < offsets.length - 1 ∧
        pr = (offsets.getD (i * ((offsets.length + n - 1) / n)) 0,
          offsets.getD (min (min ((i + 1) * ((offsets.length + n - 1) / n))
            offsets.length) (offsets.length - 1)) 0) := by
  rw [kvbinPartitions,
    rangeTakeMap_mem _ _ (kvbin_guard_mono ((offsets.length + n - 1) / n)
      (offsets.length - 1))]
  simp only [Nat.zero_le, Nat.zero_add, decide_eq_true_eq, true_and]

theorem kvbinPartitions_endpoints (offsets : List Nat) (n : Nat) (pr : Nat × Nat)
    (h : pr ∈ kvbinPartitions offsets n) :
    pr.1 ∈ offsets ∧ pr.2 ∈ offsets := by
  obtain ⟨i, _, hi2, rfl⟩ := (kvbinPartitions_mem offsets n pr).mp h
  exact ⟨getD_mem _ _ (by omega), getD_mem _ _ (by omega)⟩

theorem kvbinPartitions_first (offsets : List Nat) (n : Nat)
    (h0 : offsets.head? = some 0) (pr : Nat × Nat)
    (h : (kvbinPartitions offsets n).head? = some pr) : pr.1 = 0 := by
  rw [kvbinPartitions, rangeTakeMap_head?] at h
  split at h
  · injection h with h
    subst h
    simpa using head?_getD offsets 0 h0
  · cases h

theorem kvbinPartitions_chain' (offsets : List Nat) (n : Nat) :
    List.Chain' (fun a b : Nat × Nat => a.2 = b.1) (kvbinPartitions offsets n) := by
  rw [kvbinPartitions]
  apply rangeTakeMap_chain'
  intro j hj hj1
  simp only [decide_eq_true_eq] at hj hj1
  simp only []
  congr 1
  omega

theorem kvbinPartitions_last (offsets : List Nat) (n : Nat) (hn : 1 ≤ n)
    (fs : Nat) (hlast : offsets.getLast? = some fs) (pr : Nat × Nat)
    (h : (kvbinPartitions offsets n).getLast? = some pr) : pr.2 = fs := by
  have hne : kvbinPartitions offsets n ≠ [] := by
    intro hnil
    rw [hnil] at h
    cases h
  rw [kvbinPartitions] at h hne
  obtain ⟨j, hj1, hj2, hj3, hj4, hj5⟩ := rangeTakeMap_getLast? _ _ 0 n hne
  rw [hj5] at h
  injection h with h
  subst h
  simp only [decide_eq_true_eq] at hj3
  have hend : offsets.length - 1 ≤ (j + 1) * ((offsets.length + n - 1) / n) := by
    rcases hj4 with h4 | h4
    · have hceil := ceil_div_mul_ge offsets.length n hn
      have hj1n : j + 1 = n := by omega
      rw [hj1n]
      omega
    · simp only [decide_eq_false_iff_not, not_lt] at h4
      exact h4
  simp only []
  have hidx : min (min ((j + 1) * ((offsets.length + n - 1) / n)) offsets.length)
      (offsets.length - 1) = offsets.length - 1 := by omega
  rw [hidx]
  exact getLast?_getD offsets fs hlast

theorem kvbinPartitions_lt (offsets : List Nat) (n : Nat) (hn : 1 ≤ n)
    (hp : List.Pairwise (· < ·) offsets) (pr : Nat × Nat)
    (h : pr ∈ kvbinPartitions offsets n) : pr.1 < pr.2 := by
  obtain ⟨i, hi1, hi2, rfl⟩ := (kvbinPartitions_mem offsets n pr).mp h
  have hceil := ceil_div_mul_ge offsets.length n hn
  have hppos : 0 < (offsets.length + n - 1) / n := by
    rcases Nat.eq_zero_or_pos ((offsets.length + n - 1) / n) with h0 | h0
    · rw [h0, Nat.mul_zero] at hceil
      omega
    · exact h0
  refine getD_lt_getD offsets hp _ _ ?_ ?_
  · have hs : (i + 1) * ((offsets.length + n - 1) / n) =
        i * ((offsets.length + n - 1) / n) + (offsets.length + n - 1) / n := by
      ring
    omega
  · omega

/-- C3: for the kvbin format with an index and `num_threads > 1`, every
spawned byte range has both endpoints drawn from the loaded offset sequence,
the first spawned range starts at byte 0, consecutive ranges are adjacent,
the last ends at `file_size`; and when every index entry marks a record start
of a well-formed file, every partition boundary is a record boundary and every
producer decodes its range without ever reading a malformed length field. -/
theorem claim_c3 (idx : List Nat) (fs numThreads : Nat) (h : 1 < numThreads) :
    (∀ pr ∈ kvbinPartitions (load_index idx fs) numThreads,
      pr.1 ∈ load_index idx fs ∧ pr.2 ∈ load_index idx fs) ∧
    (∀ pr, (kvbinPartitions (load_index idx fs) numThreads).head? = some pr →
      pr.1 = 0) ∧
    List.Chain' (fun a b : Nat × Nat => a.2 = b.1)
      (kvbinPartitions (load_index idx fs) numThreads) ∧
    (∀ pr, (kvbinPartitions (load_index idx fs) numThreads).getLast? = some pr →
      pr.2 = fs) ∧
    (∀ rs : List (List Nat × List Nat),
      fs = (encodeKvFile rs).length →
      kvWellFormed rs →
      (∀ x ∈ parseIndexEntries idx, 0 < x → x < fs → isRecordStart rs x) →
      ∀ pr ∈ kvbinPartitions (load_index idx fs) numThreads,
        isRecordStart rs pr.1 ∧ isRecordStart rs pr.2 ∧
        ∃ recs, send_kvbin_chunk_indexed (encodeKvFile rs) pr.1 pr.2 =
          .ok recs) := by
  have hn1 : 1 ≤ numThreads := by omega
  refine ⟨fun pr hpr => kvbinPartitions_endpoints _ _ pr hpr,
    fun pr hpr => kvbinPartitions_first _ _ (load_index_head? idx fs) pr hpr,
    kvbinPartitions_chain' _ _,
    fun pr hpr =>
      kvbinPartitions_last _ _ hn1 fs (load_index_getLast? idx fs) pr hpr,
    ?_⟩
  intro rs hfs hwf hidx pr hpr
  have hstart : ∀ x ∈ load_index idx fs, isRecordStart rs x := by
    intro x hx
    rcases (mem_load_index idx fs x).mp hx with rfl | hx
    · exact ⟨[], rs, rfl, by simp [encodeKvFile_nil]⟩
    rcases hx with rfl | ⟨hmem, h0, hltx⟩
    · exact ⟨rs, [], by simp, hfs⟩
    · exact hidx x hmem h0 hltx
  obtain ⟨he1, he2⟩ := kvbinPartitions_endpoints _ _ pr hpr
  have hlt := kvbinPartitions_lt _ _ hn1 (load_index_pairwise_lt idx fs) pr hpr
  exact ⟨hstart _ he1, hstart _ he2,
    send_kvbin_boundaries rs hwf pr.1 pr.2 (hstart _ he1) (hstart _ he2)
      (le_of_lt hlt)⟩

theorem claim_c3_witness :
    isRecordStart [([65], [66]), ([67], [68])] 0 ∧
    isRecordStart [([65], [66]), ([67], [68])] 20 ∧
    ∃ recs, send_kvbin_chunk_indexed
      (encodeKvFile [([65], [66]), ([67], [68])]) 0 20 = .ok recs :=
  (claim_c3 [10, 0, 0, 0, 0, 0, 0, 0] 20 2 (by norm_num)).2.2.2.2
    [([65], [66]), ([67], [68])] (by decide)
    (by
      intro r hr
      rcases List.mem_cons.mp hr with rfl | hr
      · exact ⟨by decide, by decide⟩
      rcases List.mem_cons.mp hr with rfl | hr
      · exact ⟨by decide, by decide⟩
      · simp at hr)
    (by
      intro x hx
      rw [show parseIndexEntries [10, 0, 0, 0, 0, 0, 0, 0] = [10] from rfl] at hx
      rcases List.mem_singleton.mp hx with rfl
      intro _ _
      exact ⟨[([65], [66])], [([67], [68])], rfl, by decide⟩)
    (0, 20) (by decide)

/-- C7 counterexample: a bounded partition `[0, 2)` — as the planner produces
for a 2-byte kvbin file whose index holds no interior entries — contains an
incomplete record (only 2 of the 4 key-length bytes exist before
`end_offset`), yet the bounded reader returns graceful success `Ok(0 rows)`
instead of the fatal error the claim requires: the EOF `break` exists in the
bounded loop too. -/
theorem claim_c7_counterexample :
    send_kvbin_chunk_indexed [0, 0] 0 2 = .ok [] :=
  send_kvbin_eof_graceful [0, 0] 0 2 (by norm_num) rfl

/-- C7 amended: in both the bounded and the sequential kvbin decoder, an EOF
(clean or partial) during the initial 4-byte key-length read is graceful
completion (the rows read so far, no error); an EOF while reading the key
bytes, the 4-byte value length, or the value bytes is a fatal error in both
decoders. -/
theorem claim_c7 :
    (∀ (file : List Nat) (pos endOff : Nat), pos < endOff →
      readU32 (file.drop pos) = none →
      send_kvbin_chunk_indexed file pos endOff = .ok []) ∧
    (∀ (file : List Nat) (pos endOff klen : Nat), pos < endOff →
      readU32 (file.drop pos) = some klen →
      (file.drop (pos + 4)).length < klen →
      send_kvbin_chunk_indexed file pos endOff = .error ()) ∧
    (∀ (file : List Nat) (pos endOff klen : Nat), pos < endOff →
      readU32 (file.drop pos) = some klen →
      klen ≤ (file.drop (pos + 4)).length →
      readU32 (file.drop (pos + 4 + klen)) = none →
      send_kvbin_chunk_indexed file pos endOff = .error ()) ∧
    (∀ (file : List Nat) (pos endOff klen vlen : Nat), pos < endOff →
      readU32 (file.drop pos) = some klen →
      klen ≤ (file.drop (pos + 4)).length →
      readU32 (file.drop (pos + 4 + klen)) = some vlen →
      (file.drop (pos + 8 + klen)).length < vlen →
      send_kvbin_chunk_indexed file pos endOff = .error ()) ∧
    (∀ (file : List Nat) (pos : Nat),
      readU32 (file.drop pos) = none →
      kvbin_sequential_records file pos = .ok []) ∧
    (∀ (file : List Nat) (pos klen : Nat),
      readU32 (file.drop pos) = some klen →
      (file.drop (pos + 4)).length < klen →
      kvbin_sequential_records file pos = .error ()) ∧
    (∀ (file : List Nat) (pos klen : Nat),
      readU32 (file.drop pos) = some klen →
      klen ≤ (file.drop (pos + 4)).length →
      readU32 (file.drop (pos + 4 + klen)) = none →
      kvbin_sequential_records file pos = .error ()) ∧
    (∀ (file : List Nat) (pos klen vlen : Nat),
      readU32 (file.drop pos) = some klen →
      klen ≤ (file.drop (pos + 4)).length →
      readU32 (file.drop (pos + 4 + klen)) = some vlen →
      (file.drop (pos + 8 + klen)).length < vlen →
      kvbin_sequential_records file pos = .error ()) :=
  ⟨fun file pos endOff h hk => send_kvbin_eof_graceful file pos endOff h hk,
   fun file pos endOff klen h hk hkl =>
     send_kvbin_short_key file pos endOff klen h hk (by omega),
   fun file pos endOff klen h hk hkl hv =>
     send_kvbin_short_vlen file pos endOff klen h hk hkl hv,
   fun file pos endOff klen vlen h hk hkl hv hvl =>
     send_kvbin_short_val file pos endOff klen vlen h hk hkl hv (by omega),
   fun file pos hk => kvbin_sequential_eof file pos hk,
   fun file pos klen hk hkl =>
     kvbin_sequential_short_key file pos klen hk (by omega),
   fun file pos klen hk hkl hv =>
     kvbin_sequential_short_vlen file pos klen hk hkl hv,
   fun file pos klen vlen hk hkl hv hvl =>
     kvbin_sequential_short_val file pos klen vlen hk hkl hv (by omega)⟩

theorem claim_c7_witness :
    send_kvbin_chunk_indexed [0, 0, 0] 0 3 = .ok [] ∧
    send_kvbin_chunk_indexed [2, 0, 0, 0, 65] 0 9 = .error () ∧
    send_kvbin_chunk_indexed [1, 0, 0, 0, 65, 1, 0] 0 10 = .error () ∧
    send_kvbin_chunk_indexed [1, 0, 0, 0, 65, 2, 0, 0, 0, 66] 0 14 =
      .error () ∧
    kvbin_sequential_records [0] 0 = .ok [] ∧
    kvbin_sequential_records [3, 0, 0, 0, 65] 0 = .error () ∧
    kvbin_sequential_records [1, 0, 0, 0, 66, 1, 0] 0 = .error () ∧
    kvbin_sequential_records [1, 0, 0, 0, 66, 2, 0, 0, 0, 67] 0 =
      .error () :=
  ⟨claim_c7.1 [0, 0, 0] 0 3 (by norm_num) rfl,
   claim_c7.2.1 [2, 0, 0, 0, 65] 0 9 2 (by norm_num) rfl (by simp),
   claim_c7.2.2.1 [1, 0, 0, 0, 65, 1, 0] 0 10 1 (by norm_num) rfl (by simp)
     rfl,
   claim_c7.2.2.2.1 [1, 0, 0, 0, 65, 2, 0, 0, 0, 66] 0 14 1 2 (by norm_num)
     rfl (by simp) rfl (by simp),
   claim_c7.2.2.2.2.1 [0] 0 rfl,
   claim_c7.2.2.2.2.2.1 [3, 0, 0, 0, 65] 0 3 rfl (by simp),
   claim_c7.2.2.2.2.2.2.1 [1, 0, 0, 0, 66, 1, 0] 0 1 rfl (by simp) rfl,
   claim_c7.2.2.2.2.2.2.2 [1, 0, 0, 0, 66, 2, 0, 0, 0, 67] 0 1 2 rfl
     (by simp) rfl (by simp)⟩

/-- C5: `write_varint` emits exactly the base-128 LEB128 varint described by
the spec (7-bit groups least-significant first, continuation bit on all but
the final byte), and the RowBinary record encoding
`varint(len k) ++ k ++ varint(len v) ++ v` decodes under the LEB128
length-prefixed parser back to a byte-identical key and value, for arbitrary
byte content (in particular every `u64` length value). -/
theorem claim_c5 :
    (∀ v : Nat, write_varint v = leb128Spec v) ∧
    (∀ k v rest : List Nat,
      readRowBinaryRecord (encodeRowBinary k v ++ rest) = some ((k, v), rest)) :=
  ⟨write_varint_eq_leb128Spec, readRowBinaryRecord_encode⟩

/-! ### Channel capacities (C6)

The capacity expression passed to each pipeline's channel constructor. -/

/-- `sync_channel(num_threads * 2)` in `load_gensort_parallel` (load_duckdb.rs 122). -/
def gensortDuckdbChannelCapacity (numThreads : Nat) : Nat := numThreads * 2

/-- `sync_channel(100_000)` in `load_kvbin_parallel` (load_duckdb.rs 335). -/
def kvbinDuckdbChannelCapacity (_numThreads : Nat) : Nat := 100000

/-- `channel(num_threads * 4)` in `load_gensort_streaming` (load_clickhouse.rs 120). -/
def gensortClickhouseChannelCapacity (numThreads : Nat) : Nat := numThreads * 4

/-- `channel(num_threads * 4)` in `load_kvbin_streaming` (load_clickhouse.rs 271). -/
def kvbinClickhouseChannelCapacity (numThreads : Nat) : Nat := numThreads * 4

/-- `channel(4)` in `load_kvbin_sequential` (load_clickhouse.rs 349). -/
def kvbinSequentialChannelCapacity : Nat := 4

/-- C6 counterexample: the duckdb kvbin pipeline's channel has the fixed
capacity 100000 — at 2 requested threads this is not within `[2*2, 4*2]`, so
not every loader pipeline's capacity is proportional to the thread count. -/
theorem claim_c6_counterexample :
    kvbinDuckdbChannelCapacity 2 = 100000 ∧
    ¬ (2 * 2 ≤ kvbinDuckdbChannelCapacity 2 ∧
        kvbinDuckdbChannelCapacity 2 ≤ 4 * 2) := by
  constructor
  · rfl
  · intro hc
    have := hc.2
    simp [kvbinDuckdbChannelCapacity] at this

/-- C6 amended: the gensort pipelines and the clickhouse kvbin parallel
pipeline use capacities between 2x and 4x the thread count (2x duckdb, 4x
clickhouse); the duckdb kvbin pipeline uses the fixed capacity 100000, and the
clickhouse sequential kvbin path the fixed capacity 4, independent of the
thread count. -/
theorem claim_c6 :
    (∀ n : Nat, 2 * n ≤ gensortDuckdbChannelCapacity n ∧
      gensortDuckdbChannelCapacity n ≤ 4 * n) ∧
    (∀ n : Nat, 2 * n ≤ gensortClickhouseChannelCapacity n ∧
      gensortClickhouseChannelCapacity n ≤ 4 * n) ∧
    (∀ n : Nat, 2 * n ≤ kvbinClickhouseChannelCapacity n ∧
      kvbinClickhouseChannelCapacity n ≤ 4 * n) ∧
    (∀ n : Nat, kvbinDuckdbChannelCapacity n = 100000) ∧
    kvbinSequentialChannelCapacity = 4 := by
  refine ⟨fun n => ⟨?_, ?_⟩, fun n => ⟨?_, ?_⟩, fun n => ⟨?_, ?_⟩,
    fun n => rfl, rfl⟩ <;>
    simp [gensortDuckdbChannelCapacity, gensortClickhouseChannelCapacity,
      kvbinClickhouseChannelCapacity] <;> omega

/-! ### Aggregator join loop (C9)

Translated from the join loops of `load_gensort_parallel` (load_duckdb.rs
177–186) and `load_gensort` (load_postgres.rs 155–164): each `handle.join()`
outcome is either a row count, a returned error, or a panic. -/

inductive ThreadOutcome where
  | ok (rows : Nat)
  | failed (msg : String)
  | panicked
deriving DecidableEq

inductive AggError where
  | failed (threadId : Nat) (msg : String)
  | panicked (threadId : Nat)
deriving DecidableEq

/-- The join loop over the handles from thread `i` on: joins handles one by
one; an `Ok(Ok(rows))` continues, an `Ok(Err(e))` returns
`"Thread i failed: e"`, an `Err(_)` returns `"Thread i panicked"` — in both
error cases the loop `return`s immediately.  The second component counts how
many handles were actually joined before returning. -/
def joinLoop (i : Nat) : List ThreadOutcome → Except AggError (List Nat) × Nat
  | [] => (.ok [], 0)
  | .ok r :: rest =>
    ((match (joinLoop (i + 1) rest).1 with
      | .ok l => .ok (r :: l)
      | .error e => .error e), (joinLoop (i + 1) rest).2 + 1)
  | .failed m :: _ => (.error (.failed i m), 1)
  | .panicked :: _ => (.error (.panicked i), 1)

/-- The aggregator over all spawned handles. -/
def aggregate (outcomes : List ThreadOutcome) : Except AggError (List Nat) × Nat :=
  joinLoop 0 outcomes

theorem joinLoop_failed (m : String) (rest : List ThreadOutcome)
    (pre : List ThreadOutcome) :
    ∀ i, (∀ o ∈ pre, ∃ r, o = ThreadOutcome.ok r) →
      joinLoop i (pre ++ ThreadOutcome.failed m :: rest) =
        (.error (.failed (i + pre.length) m), pre.length + 1) := by
  induction pre with
  | nil => intro i _; simp [joinLoop]
  | cons o pre ih =>
    intro i hok
    obtain ⟨r, rfl⟩ := hok o (List.mem_cons_self _ _)
    have harith : i + 1 + pre.length = i + (pre.length + 1) := by omega
    simp only [List.cons_append, joinLoop, List.append_eq,
      ih (i + 1) (fun o ho => hok o (List.mem_cons_of_mem _ ho)), harith,
      List.length_cons]

theorem joinLoop_panicked (rest : List ThreadOutcome)
    (pre : List ThreadOutcome) :
    ∀ i, (∀ o ∈ pre, ∃ r, o = ThreadOutcome.ok r) →
      joinLoop i (pre ++ ThreadOutcome.panicked :: rest) =
        (.error (.panicked (i + pre.length)), pre.length + 1) := by
  induction pre with
  | nil => intro i _; simp [joinLoop]
  | cons o pre ih =>
    intro i hok
    obtain ⟨r, rfl⟩ := hok o (List.mem_cons_self _ _)
    have harith : i + 1 + pre.length = i + (pre.length + 1) := by omega
    simp only [List.cons_append, joinLoop, List.append_eq,
      ih (i + 1) (fun o ho => hok o (List.mem_cons_of_mem _ ho)), harith,
      List.length_cons]

theorem joinLoop_all_ok (rows : List Nat) :
    ∀ i, joinLoop i (rows.map ThreadOutcome.ok) = (.ok rows, rows.length) := by
  induction rows with
  | nil => intro i; rfl
  | cons r rows ih =>
    intro i
    simp only [List.map_cons, joinLoop, ih (i + 1)]
    rfl

/-- C9 counterexample: when the first thread fails, the aggregator reports the
failure but joins only that one handle — the second spawned thread is never
joined (the loop `return`s), contradicting "still joins every other
already-spawned thread before returning". -/
theorem claim_c9_counterexample :
    (aggregate [ThreadOutcome.failed "io error", ThreadOutcome.ok 5]).1 =
      .error (.failed 0 "io error") ∧
    (aggregate [ThreadOutcome.failed "io error", ThreadOutcome.ok 5]).2 = 1 ∧
    [ThreadOutcome.failed "io error", ThreadOutcome.ok 5].length = 2 :=
  ⟨rfl, rfl, rfl⟩

/-- C9 amended: the aggregator reports the first error encountered in join
order, correctly distinguishing "failed" from "panicked", but returns
immediately at that first error: exactly the handles up to and including the
first failing one are joined, and later handles are abandoned unjoined; only
when every thread succeeded are all handles joined. -/
theorem claim_c9 :
    (∀ (pre rest : List ThreadOutcome) (m : String),
      (∀ o ∈ pre, ∃ r, o = ThreadOutcome.ok r) →
      aggregate (pre ++ ThreadOutcome.failed m :: rest) =
        (.error (.failed pre.length m), pre.length + 1)) ∧
    (∀ (pre rest : List ThreadOutcome),
      (∀ o ∈ pre, ∃ r, o = ThreadOutcome.ok r) →
      aggregate (pre ++ ThreadOutcome.panicked :: rest) =
        (.error (.panicked pre.length), pre.length + 1)) ∧
    (∀ rows : List Nat,
      aggregate (rows.map ThreadOutcome.ok) = (.ok rows, rows.length)) := by
  refine ⟨fun pre rest m hok => ?_, fun pre rest hok => ?_, fun rows => ?_⟩
  · have h := joinLoop_failed m rest pre 0 hok
    simpa [aggregate] using h
  · have h := joinLoop_panicked rest pre 0 hok
    simpa [aggregate] using h
  · exact joinLoop_all_ok rows 0

theorem claim_c9_witness :
    aggregate [ThreadOutcome.ok 3, ThreadOutcome.panicked, ThreadOutcome.ok 4] =
      (.error (.panicked 1), 2) := by
  have h := claim_c9.2.1 [ThreadOutcome.ok 3] [ThreadOutcome.ok 4]
    (by
      intro o ho
      rcases List.mem_singleton.mp ho with rfl
      exact ⟨3, rfl⟩)
  simpa using h

/-! ### Streaming upload: batching and the ChannelReader row estimate (C8) -/

/-- One iteration of the producers' buffer logic: append the record's encoded
bytes; once the buffer reaches the threshold it is sent and a fresh buffer
started. -/
def batchStep (threshold : Nat) (acc : List (List Nat) × List Nat)
    (c : List Nat) : List (List Nat) × List Nat :=
  if threshold ≤ (acc.2 ++ c).length then (acc.1 ++ [acc.2 ++ c], [])
  else (acc.1, acc.2 ++ c)

/-- The sequence of batches a producer sends for a given stream of per-record
encodings, including the final partial buffer (sent iff non-empty). -/
def greedyBatches (threshold : Nat) (chunks : List (List Nat)) :
    List (List Nat) :=
  if (chunks.foldl (batchStep threshold) ([], [])).2.isEmpty then
    (chunks.foldl (batchStep threshold) ([], [])).1
  else
    (chunks.foldl (batchStep threshold) ([], [])).1 ++
      [(chunks.foldl (batchStep threshold) ([], [])).2]

/-- Translated from `ChannelReader::poll_read`: for every batch received the
row counter is increased by `chunk.len() / 102` (the gensort row size), an
estimate, not a count of records. -/
def channelReaderCount (batches : List (List Nat)) : Nat :=
  (batches.map (fun b => b.length / 102)).sum

theorem channelReaderCount_append (a b : List (List Nat)) :
    channelReaderCount (a ++ b) = channelReaderCount a + channelReaderCount b := by
  simp [channelReaderCount]

theorem batch_fold_count (threshold : Nat) :
    ∀ chunks : List (List Nat), (∀ c ∈ chunks, c.length = 102) →
    ∀ acc : List (List Nat) × List Nat,
      channelReaderCount (chunks.foldl (batchStep threshold) acc).1 +
        (chunks.foldl (batchStep threshold) acc).2.length / 102 =
      channelReaderCount acc.1 + acc.2.length / 102 + chunks.length := by
  intro chunks
  induction chunks with
  | nil => intro _ acc; simp
  | cons c cs ih =>
    intro h102 acc
    have hc : c.length = 102 := h102 c (List.mem_cons_self _ _)
    simp only [List.foldl_cons]
    rw [ih (fun x hx => h102 x (List.mem_cons_of_mem _ hx))]
    rw [batchStep]
    by_cases hth : threshold ≤ (acc.2 ++ c).length
    · rw [if_pos hth]
      simp only [channelReaderCount, List.map_append, List.sum_append,
        List.map_cons, List.map_nil, List.sum_cons, List.sum_nil,
        List.length_append, List.length_nil, List.length_cons, hc]
      omega
    · rw [if_neg hth]
      simp only [channelReaderCount, List.length_append, List.length_cons, hc]
      omega

theorem channelReaderCount_greedy_102 (threshold : Nat)
    (chunks : List (List Nat)) (h102 : ∀ c ∈ chunks, c.length = 102) :
    channelReaderCount (greedyBatches threshold chunks) = chunks.length := by
  have h := batch_fold_count threshold chunks h102 ([], [])
  rw [greedyBatches]
  by_cases he : (chunks.foldl (batchStep threshold) ([], [])).2.isEmpty
  · rw [if_pos he]
    have h2 : (chunks.foldl (batchStep threshold) ([], [])).2 = [] :=
      List.isEmpty_iff.mp he
    rw [h2] at h
    simpa [channelReaderCount] using h
  · rw [if_neg he]
    rw [channelReaderCount_append]
    simp only [channelReaderCount, List.map_cons, List.map_nil,
      List.sum_cons, List.sum_nil, List.length_nil] at h ⊢
    omega

/-- Per-record RowBinary output of `format_gensort_to_rowbinary`: the literal
length bytes 10 and 90 (one-byte varints) framing key and payload. -/
def encodeGensortRowBinary (r : List Nat) : List Nat :=
  10 :: r.take 10 ++ 90 :: r.drop 10

theorem encodeGensortRowBinary_length (r : List Nat) (h : r.length = 100) :
    (encodeGensortRowBinary r).length = 102 := by
  simp [encodeGensortRowBinary]
  omega

/-- Translated from `load_gensort_streaming`: producers format their record
ranges into RowBinary batches (flushed at `batch_size * 102` bytes); the
loader returns the ChannelReader's total, the sum of `len / 102` over every
batch received. -/
def load_gensort_streaming (file : List Nat) (numThreads batchSize : Nat) :
    Option Nat :=
  (optionTraverse
      (fun pr => (send_gensort_chunk_batched file pr.1 pr.2).map
        (fun recs => greedyBatches (batchSize * 102)
          (recs.map encodeGensortRowBinary)))
      (gensortPartitions (file.length / 100) numThreads)).map
    (fun batchLists => (batchLists.map channelReaderCount).sum)

/-- Sequential composition of fallible producers for the Except-based model. -/
def exceptTraverse (f : α → Except ε β) : List α → Except ε (List β)
  | [] => .ok []
  | a :: l =>
    match f a, exceptTraverse f l with
    | .ok b, .ok bs => .ok (b :: bs)
    | .error e, _ => .error e
    | .ok _, .error e => .error e

/-- Translated from `load_kvbin_streaming` (parallel path): partitions from
the loaded index, each producer decodes its byte range and emits RowBinary
batches (flushed at `batch_size * 128` bytes); the loader returns the
ChannelReader's 102-bytes-per-row estimate, not the producers' exact row
counts (those are only printed). -/
def load_kvbin_streaming (file idx : List Nat) (numThreads batchSize : Nat) :
    Except Unit Nat :=
  (exceptTraverse
      (fun pr => (send_kvbin_chunk_indexed file pr.1 pr.2).map
        (fun recs => greedyBatches (batchSize * 128)
          (recs.map (fun r => encodeRowBinary r.1 r.2))))
      (kvbinPartitions (load_index idx file.length) numThreads)).map
    (fun batchLists => (batchLists.map channelReaderCount).sum)

theorem forall₂_sum_counts (l : List (Nat × Nat)) (bs : List (List (List Nat)))
    (h : List.Forall₂ (fun (pr : Nat × Nat) b =>
      channelReaderCount b = pr.2 - pr.1) l bs) :
    (bs.map channelReaderCount).sum = (l.map (fun pr => pr.2 - pr.1)).sum := by
  induction h with
  | nil => rfl
  | cons h1 h2 ih => simp [h1, ih]

/-- The gensort streaming loader's estimate is exact: every batch consists of
whole 102-byte rows, so the ChannelReader total equals `file_size / 100`. -/
theorem load_gensort_streaming_eq (file : List Nat) (n bs : Nat)
    (hn : 1 ≤ n) :
    load_gensort_streaming file n bs = some (file.length / 100) := by
  rw [load_gensort_streaming]
  obtain ⟨bls, hbls, hfa⟩ := optionTraverse_success
    (fun pr => (send_gensort_chunk_batched file pr.1 pr.2).map
      (fun recs => greedyBatches (bs * 102) (recs.map encodeGensortRowBinary)))
    (fun pr b => channelReaderCount b = pr.2 - pr.1)
    (gensortPartitions (file.length / 100) n)
    (fun pr hpr => by
      obtain ⟨recs, h1, h2, h3⟩ := gensort_producer_success file n pr hpr
      refine ⟨greedyBatches (bs * 102) (recs.map encodeGensortRowBinary),
        by simp only [h1, Option.map_some'], ?_⟩
      show channelReaderCount (greedyBatches (bs * 102)
        (recs.map encodeGensortRowBinary)) = pr.2 - pr.1
      rw [channelReaderCount_greedy_102]
      · simp [h2]
      · intro c hc
        obtain ⟨r, hr, rfl⟩ := List.mem_map.mp hc
        exact encodeGensortRowBinary_length r (h3 r hr))
  rw [hbls]
  simp only [Option.map_some']
  rw [forall₂_sum_counts _ _ hfa, gensortPartitions_sum _ _ hn]

/-- C8 counterexample: a kvbin file of two records `([65],[66])`, `([67],[68])`
(20 bytes, index entry at byte 10) loaded with 2 threads and batch_size 1.
The single producer decodes both records, but their RowBinary bytes total 8,
so the ChannelReader estimate — and hence the loader's returned row count —
is `8 / 102 = 0`, not the exact count 2 of length-prefixed records read. -/
theorem claim_c8_counterexample :
    load_kvbin_streaming (encodeKvFile [([65], [66]), ([67], [68])])
      [10, 0, 0, 0, 0, 0, 0, 0] 2 1 = .ok 0 ∧
    send_kvbin_chunk_indexed (encodeKvFile [([65], [66]), ([67], [68])]) 0 20 =
      .ok [([65], [66]), ([67], [68])] := by
  have hwf : kvWellFormed [([65], [66]), ([67], [68])] := by
    intro r hr
    rcases List.mem_cons.mp hr with rfl | hr
    · exact ⟨by decide, by decide⟩
    rcases List.mem_cons.mp hr with rfl | hr
    · exact ⟨by decide, by decide⟩
    · simp at hr
  have hdec : send_kvbin_chunk_indexed
      (encodeKvFile [([65], [66]), ([67], [68])]) 0 20 =
      .ok [([65], [66]), ([67], [68])] := by
    have h := send_kvbin_aligned [([65], [66]), ([67], [68])]
      (encodeKvFile [([65], [66]), ([67], [68])]) [] 0 (by simp) hwf
    rw [show (0 : Nat) + (encodeKvFile [([65], [66]), ([67], [68])]).length = 20
      from by decide] at h
    exact h
  refine ⟨?_, hdec⟩
  have hw1 : write_varint 1 = [1] := by
    rw [write_varint]
    norm_num
  rw [load_kvbin_streaming]
  rw [show kvbinPartitions (load_index [10, 0, 0, 0, 0, 0, 0, 0]
      (encodeKvFile [([65], [66]), ([67], [68])]).length) 2 = [(0, 20)]
    from by decide]
  simp only [exceptTraverse, hdec, Except.map]
  simp [encodeRowBinary, hw1, greedyBatches, batchStep, channelReaderCount]

/-- C8 amended: the fixed-format (gensort) streaming loader's returned count
is exact — every batch is a whole number of 102-byte rows, so the
ChannelReader total equals `file_size / 100`; the sequential kvbin loader
returns the exact number of length-prefixed records read; but the parallel
kvbin streaming loader returns the ChannelReader's `Σ floor(batch_len / 102)`
estimate, which can differ from the exact record count. -/
theorem claim_c8 :
    (∀ (file : List Nat) (numThreads batchSize : Nat), 1 ≤ numThreads →
      load_gensort_streaming file numThreads batchSize =
        some (file.length / 100)) ∧
    (∀ rs : List (List Nat × List Nat), kvWellFormed rs →
      kvbin_sequential_records (encodeKvFile rs) 0 = .ok rs) :=
  ⟨fun file n bs hn => load_gensort_streaming_eq file n bs hn,
   fun rs hwf => kvbin_sequential_aligned rs (encodeKvFile rs) 0 (by simp) hwf⟩

theorem claim_c8_witness :
    load_gensort_streaming (List.replicate 204 0) 2 1 = some 2 ∧
    kvbin_sequential_records (encodeKvFile [([65], [66])]) 0 =
      .ok [([65], [66])] := by
  constructor
  · have h := claim_c8.1 (List.replicate 204 0) 2 1 (by norm_num)
    have h2 : (List.replicate 204 (0 : Nat)).length / 100 = 2 := by
      simp only [List.length_replicate]
    rw [h2] at h
    exact h
  · refine claim_c8.2 [([65], [66])] ?_
    intro r hr
    rcases List.mem_cons.mp hr with rfl | hr
    · exact ⟨by decide, by decide⟩
    · simp at hr

end EsDuck
